import Mathlib

/-!
Verification of the keminggris-dashboard data pipeline
(`pages/1_Participants.py`, `pages/2_Session_Feedback.py`,
`pages/3_Moderator_Feedback.py`).

The pandas code is shallowly embedded: a CSV cell is an `Option String`
(`none` is pandas `NaN`), a column is a `List` of cells, and every
pandas transformation used by the pages is translated into an
executable Lean function.  Key pandas facts encoded in the embedding:

* `Series.astype(str)` maps `NaN` to the literal string `"nan"`;
* `Series.str.strip()` strips unicode whitespace from both ends;
* `pd.to_datetime(col, errors := coerce)` turns unparseable entries
  into `NaT` (modelled as `none`; the tolerant parser itself is an
  arbitrary parameter `p : String → Option …`);
* `sort_values` is modelled as insertion sort, i.e. some sorted
  permutation; no proved property relies on `sort_values` being stable
  (pandas' default quicksort is not), and
  `drop_duplicates(keep := first)` keeps the first occurrence of each
  key;
* a Python `dict` used as a counter keeps its keys in first-insertion
  order, and Python `sorted` is a stable sort.
-/

namespace Keminggris

/-! ### String helpers -/

/-- Strip leading and trailing whitespace from a character list,
modelling Python `str.strip()`. -/
def stripBoth (l : List Char) : List Char :=
  ((l.dropWhile Char.isWhitespace).reverse.dropWhile Char.isWhitespace).reverse

/-- Python `str.strip()` on a Lean `String`. -/
def trimStr (s : String) : String :=
  String.mk (stripBoth s.data)

/-- Python `str.lower()`. -/
def lowerStr (s : String) : String :=
  String.mk (s.data.map Char.toLower)

/-- Does `pre` occur at the head of `hay`? -/
def headMatch : List Char → List Char → Bool
  | _, [] => true
  | [], _ :: _ => false
  | h :: hs, n :: ns => h == n && headMatch hs ns

/-- Does `needle` occur as a contiguous substring of `hay`? -/
def containsSub (hay needle : List Char) : Bool :=
  match hay with
  | [] => headMatch [] needle
  | _ :: tl => headMatch hay needle || containsSub tl needle

/-- Python `needle in hay` on strings. -/
def strContainsSub (hay needle : String) : Bool :=
  containsSub hay.data needle.data

/-- Python's string order: lexicographic comparison by codepoint. -/
def lexLeB : List Char → List Char → Bool
  | [], _ => true
  | _ :: _, [] => false
  | x :: xs, y :: ys =>
    if x.toNat < y.toNat then true
    else if y.toNat < x.toNat then false
    else lexLeB xs ys

/-- Python `a <= b` on strings. -/
def strLeB (a b : String) : Bool :=
  lexLeB a.data b.data

/-! ### Participant rows (`pages/1_Participants.py`, `load_participants`)

Row-wise view of the identity-resolution part of `load_participants`
(lines 58–79 of `pages/1_Participants.py`).  A raw row holds the CSV
cells of the columns that the derived fields read. -/

/-- A raw participants CSV row (after schema normalization, cells still
unparsed: `none` is a missing cell). -/
structure PRaw where
  timestamp : Option String
  name : Option String
  email : Option String
  email_address : Option String
  instagram : Option String
  session_type : Option String
deriving DecidableEq

/-- pandas `Series.astype(str)` on one cell: `NaN` becomes the literal
string `"nan"`. -/
def stringifyCell : Option String → String
  | none => "nan"
  | some s => s

/-- One cell of the cleaning step
`df[c] = df[c].astype(str).str.strip()` (line 59). -/
def cleanCell (v : Option String) : Option String :=
  some (trimStr (stringifyCell v))

/-- Length of the string in a cell; pandas `str.len()` (only used on
cells that are present). -/
def optLen : Option String → Nat
  | none => 0
  | some s => s.length

/-- The `session_type` → `session_type_norm` classifier (lines 70–74),
applied to one raw cell, including the upstream cleaning of the
`session_type` column (line 59):
`np.where(contains friday, Friday, np.where(contains regular, Regular, Other))`. -/
def sessionTypeNorm (v : Option String) : String :=
  let cleaned := cleanCell v
  let stl := (cleaned.map lowerStr).getD ""
  if strContainsSub stl "friday" then "Friday"
  else if strContainsSub stl "regular" then "Regular"
  else "Other"

/-- A normalized participant record with the derived fields of
`load_participants`. -/
structure PRec where
  name : Option String
  email : Option String
  email_address : Option String
  instagram : Option String
  session_type : Option String
  participant_email : Option String
  participant_key : Option String
  display_name : Option String
  session_type_norm : String
deriving DecidableEq

/-- Row-wise translation of lines 58–74 of `pages/1_Participants.py`:
cleaning of the string columns, then
`participant_email = email.where(email.notna() & (email.str.len() > 0), email_address)`,
`participant_key = participant_email.fillna(instagram).fillna(name).str.lower().str.strip()`,
`display_name = name.where(name.str.len() > 0, participant_email)`,
and the session-type classifier.  The `instagram` column is not in the
cleaning list, so it keeps its raw cell. -/
def processRow (r : PRaw) : PRec :=
  let name := cleanCell r.name
  let email := cleanCell r.email
  let email_address := cleanCell r.email_address
  let session_type := cleanCell r.session_type
  let instagram := r.instagram
  let pemail :=
    if email.isSome ∧ 0 < optLen email then email else email_address
  let pkey :=
    ((pemail.orElse fun _ => instagram).orElse fun _ => name).map
      fun s => trimStr (lowerStr s)
  let dname := if 0 < optLen name then name else pemail
  { name := name, email := email, email_address := email_address,
    instagram := instagram, session_type := session_type,
    participant_email := pemail, participant_key := pkey,
    display_name := dname, session_type_norm := sessionTypeNorm r.session_type }

/-- Lines 58–76 of `pages/1_Participants.py` applied to a whole table:
clean and derive every row, then `df.dropna(subset := [name])` (after
`astype(str)` the `name` column holds no `NaN`, which the filter tests
faithfully). -/
def loadParticipants (rows : List PRaw) : List PRec :=
  (rows.map processRow).filter fun r => r.name.isSome

/-- Modelled from the spec's words (for comparison with the code):
`participant_key` is "lowercase, trimmed, the first non-empty value
among {primary email, secondary email, instagram handle, display
name}, in that priority order"; absent cells and cells that trim to
the empty string are skipped. -/
def participantKeySpec (r : PRaw) : Option String :=
  let cands := [r.email, r.email_address, r.instagram, r.name]
  (((cands.filterMap id).map trimStr).filter fun s => s ≠ "").head?.map
    fun s => trimStr (lowerStr s)

/-! ### Columnar schema normalization (`load_participants`, lines 24–55)

A DataFrame is a list of named columns; each column is a list of cells.
This covers the rename map, the ensure-columns loop, and the timestamp
parsing with its `date`/`month` helper columns. -/

/-- A DataFrame: named columns of equal length. -/
abbrev Table := List (String × List (Option String))

/-- The literal `rename_map` of lines 24–36. -/
def renameMapBase : List (String × String) :=
  [("Timestamp", "timestamp"), ("Name", "name"), ("Email", "email"),
   ("Sessions Joining", "sessions_joining"), ("English Level", "english_level"),
   ("Motivation", "motivation"), ("Instagram", "instagram"),
   ("Discovery Source", "discovery_source"), ("Topic Suggestion", "topic_suggestion"),
   ("Email Address", "email_address"), ("Session Type", "session_type")]

/-- Column names of a table, in order. -/
def colNames (t : Table) : List String := t.map (·.1)

/-- Lines 37–39: for each entry `(k, v)` of the original map, if
`k.lower()` is a column name, add the entry `(k.lower(), v)` to the
dict (the lowercase keys are fresh, so dict update is append). -/
def renameMapExt (t : Table) : List (String × String) :=
  renameMapBase ++
    renameMapBase.filterMap fun kv =>
      if lowerStr kv.1 ∈ colNames t then some (lowerStr kv.1, kv.2) else none

/-- Line 40: keep only the entries whose key is a column of `df`. -/
def presentMap (t : Table) : List (String × String) :=
  (renameMapExt t).filter fun kv => kv.1 ∈ colNames t

/-- `df.rename(columns := present)` applied to one column name. -/
def applyRename (t : Table) (c : String) : String :=
  match (presentMap t).lookup c with
  | some v => v
  | none => c

/-- Lines 41–42: rename the matching columns. -/
def renameCols (t : Table) : Table :=
  t.map fun p => (applyRename t p.1, p.2)

/-- The canonical columns of the ensure-columns loop (lines 45–48). -/
def canonicalCols : List String :=
  ["timestamp", "name", "email", "sessions_joining", "english_level", "motivation",
   "instagram", "discovery_source", "topic_suggestion", "email_address", "session_type"]

/-- Number of rows of a DataFrame (length of its first column). -/
def nRows (t : Table) : Nat :=
  match t with
  | [] => 0
  | p :: _ => p.2.length

/-- One step of the ensure-columns loop (lines 44–50):
`if col not in df.columns: df[col] = np.nan` — append a missing
canonical column filled with `NaN`. -/
def ensureStep (acc : Table) (c : String) : Table :=
  if c ∈ colNames acc then acc
  else acc ++ [(c, List.replicate (nRows acc) none)]

/-- Lines 44–50: run the ensure-columns loop over the canonical names. -/
def ensureCols (t : Table) : Table :=
  canonicalCols.foldl ensureStep t

/-- The `timestamp` column of the renamed-and-completed table. -/
def tsRawCol (t : Table) : List (Option String) :=
  ((ensureCols (renameCols t)).lookup "timestamp").getD []

/-- Lines 52–55 parameterized by the tolerant parser `p`
(`pd.to_datetime(col, errors := coerce)`: a failing parse is `none`,
the row is kept) and by the renderers `dfmt` (`dt.date`) and `mfmt`
(`dt.to_period(M).astype(str)`; a missing timestamp renders as the
string `"NaT"`, never as a missing cell). -/
def parseTsCols (p : String → Option String) (dfmt mfmt : String → String)
    (t : Table) : Table :=
  let t2 := ensureCols (renameCols t)
  let parsed := (tsRawCol t).map fun v => v.bind p
  (t2.map fun q => if q.1 = "timestamp" then (q.1, parsed) else q) ++
    [("date", parsed.map fun o => o.map dfmt),
     ("month", parsed.map fun o =>
        some (match o with | none => "NaT" | some v => mfmt v))]

/-- The whole schema-normalization prefix of `load_participants`
(lines 24–55). -/
def normalizeTable (p : String → Option String) (dfmt mfmt : String → String)
    (t : Table) : Table :=
  parseTsCols p dfmt mfmt t

/-! ### Session filter and unique-participants deduplication
(`pages/1_Participants.py`, lines 109–117)

The rows of the loaded table, seen through the fields the view
pipeline reads: `participant_key`, the parsed `timestamp` (an abstract
time scale `Option Nat`, `none` is `NaT`) and `session_type_norm`. -/

/-- A loaded participant row as the view pipeline sees it. -/
structure VRow where
  key : Option String
  ts : Option Nat
  stype : String
deriving DecidableEq

/-- Order on optional values with `none` sorted last
(`na_position := last`). -/
def optLeB {γ : Type} [LinearOrder γ] [DecidableEq γ] :
    Option γ → Option γ → Bool
  | _, none => true
  | none, some _ => false
  | some a, some b => decide (a ≤ b)

/-- Strict version of `optLeB`. -/
def optLtB {γ : Type} [LinearOrder γ] [DecidableEq γ]
    (a b : Option γ) : Bool :=
  optLeB a b && !(optLeB b a)

/-- Order on optional string keys with `none` sorted last
(`na_position := last`). -/
def okeyLeB : Option String → Option String → Bool
  | _, none => true
  | none, some _ => false
  | some a, some b => strLeB a b

/-- Strict version of `okeyLeB`. -/
def okeyLtB (a b : Option String) : Bool :=
  okeyLeB a b && !(okeyLeB b a)

/-- The comparator of
`view.sort_values([participant_key, timestamp], na_position := last)`:
lexicographic on key then parsed timestamp, missing values last. -/
def vrowLe (a b : VRow) : Bool :=
  okeyLtB a.key b.key || (a.key == b.key && optLeB a.ts b.ts)

/-- The sort order as a relation. -/
def VRowRel (a b : VRow) : Prop := vrowLe a b = true

instance : DecidableRel VRowRel := fun a b => by
  unfold VRowRel; infer_instance

/-- `drop_duplicates(participant_key, keep := first)`: scan the rows,
keeping a row exactly when its key was not seen earlier. -/
def dedupKeyAux : List (Option String) → List VRow → List VRow
  | _, [] => []
  | seen, r :: rs =>
    if r.key ∈ seen then dedupKeyAux seen rs
    else r :: dedupKeyAux (r.key :: seen) rs

/-- `drop_duplicates(participant_key, keep := first)` on a whole table. -/
def dedupKey (l : List VRow) : List VRow :=
  dedupKeyAux [] l

/-- Lines 111–112: the categorical session-type filter with the `All`
sentinel. -/
def sessionFiltered (rows : List VRow) (pick : String) : List VRow :=
  if pick = "All" then rows else rows.filter fun r => decide (r.stype = pick)

/-- Lines 114–117 applied after the session filter: the
"Unique participants" view. -/
def uniqueView (rows : List VRow) (pick : String) : List VRow :=
  dedupKey (List.insertionSort VRowRel (sessionFiltered rows pick))

/-! ### Conjunctive filters (`pages/3_Moderator_Feedback.py`, lines 31–39,
and the same mask shape in `pages/2_Session_Feedback.py`, lines 52–60) -/

/-- A feedback row as the masks see it. -/
structure FRow where
  session_day : Option String
  session_label : Option String
  moderator_name : Option String
deriving DecidableEq

/-- `if session_day_sel != All: mask &= (df[session_day] == sel)`
(pandas `==` is false on `NaN`). -/
def pDay (sel : String) (r : FRow) : Bool :=
  if sel = "All" then true else decide (r.session_day = some sel)

/-- `if date_sel and (All not in date_sel): mask &= isin(date_sel)`
(pandas `isin` is false on `NaN`). -/
def pDate (sel : List String) (r : FRow) : Bool :=
  if sel = [] || sel.contains "All" then true
  else
    match r.session_label with
    | some v => sel.contains v
    | none => false

/-- `if mods_sel != All: mask &= (df[moderator_name] == sel)`. -/
def pMod (sel : String) (r : FRow) : Bool :=
  if sel = "All" then true else decide (r.moderator_name = some sel)

/-- The combined mask of lines 31–39 applied with `df.loc[mask]`. -/
def momodView (rows : List FRow) (d : String) (ds : List String)
    (m : String) : List FRow :=
  rows.filter fun r => pDay d r && pDate ds r && pMod m r

/-- Sort rows descending by a numeric key `k` (the order used by
Python `sorted(…, key := minus count)`). -/
def Desc {α β : Type} [LinearOrder β] (k : α → β) (a b : α) : Prop :=
  k b ≤ k a

instance {α β : Type} [LinearOrder β] (k : α → β) : DecidableRel (Desc k) :=
  fun a b => inferInstanceAs (Decidable (k b ≤ k a))

/-- After a stable descending sort by `k` of a list that was pairwise
`R`, consecutive elements are either strictly descending in `k` or tied
with their original relative order `R`. -/
def DescTie {α β : Type} [LinearOrder β] (k : α → β) (R : α → α → Prop)
    (a b : α) : Prop :=
  k b < k a ∨ (k a = k b ∧ R a b)

/-! ### Numeric distribution (`pages/2_Session_Feedback.py`,
`score_hist`, lines 109–113)

`view[m].round(1).value_counts()` then re-sorted ascending by score;
the chart computes `pct = count / sum(count)`.  Scores are rationals;
`np.round(x, 1)` rounds half to even at one decimal. -/

/-- Round half to even to an integer. -/
def roundHalfEven (x : ℚ) : ℤ :=
  let f := Int.floor x
  let frac := x - (f : ℚ)
  if frac < 1/2 then f
  else if 1/2 < frac then f + 1
  else if 2 ∣ f then f else f + 1

/-- `np.round(x, 1)`. -/
def round1 (x : ℚ) : ℚ :=
  (roundHalfEven (10 * x) : ℚ) / 10

/-- `view[m].round(1).value_counts()` re-indexed and sorted ascending
by score (`d.sort_values(score)`): `NaN` scores are dropped by
`value_counts`, each bucket carries its occurrence count. -/
def scoreHist (vals : List (Option ℚ)) : List (ℚ × Nat) :=
  let xs := (vals.map (Option.map round1)).filterMap id
  (List.insertionSort (· ≤ ·) xs.dedup).map fun s => (s, xs.count s)

/-- The chart's percentage denominator `total = sum(count)`. -/
def histTotal (h : List (ℚ × Nat)) : Nat :=
  (h.map (·.2)).sum

/-- The chart's `pct = datum.count / datum.total` per bucket. -/
def histPcts (h : List (ℚ × Nat)) : List (ℚ × ℚ) :=
  h.map fun p => (p.1, (p.2 : ℚ) / (histTotal h : ℚ))

/-! ### Tag extraction and theme frequency table
(`pages/2_Session_Feedback.py`, lines 261–266) -/

/-- Python `str.split(";")` on a character list: split at every
semicolon, keeping empty pieces (so `""` yields `[""]`). -/
def splitSemi : List Char → List (List Char)
  | [] => [[]]
  | c :: cs =>
    match splitSemi cs with
    | [] => [[]]
    | piece :: rest =>
      if c = ';' then [] :: piece :: rest else (c :: piece) :: rest

/-- `[x.strip() for x in str(s).split(";") if x.strip()]`: split on
semicolons, trim, drop empty pieces. -/
def splitTags (s : String) : List String :=
  ((splitSemi s.data).map fun cs => trimStr (String.mk cs)).filter
    fun x => x ≠ ""

/-- One step of `theme_counts[t] = theme_counts.get(t, 0) + 1` on a
Python dict held as an insertion-ordered association list. -/
def addTag (table : List (String × Nat)) (t : String) : List (String × Nat) :=
  if table.any fun p => p.1 == t then
    table.map fun p => if p.1 = t then (p.1, p.2 + 1) else p
  else table ++ [(t, 1)]

/-- The flattened tag sequence of lines 262–264:
`view[themes].dropna()`, each entry split into tags. -/
def flatTags (vals : List (Option String)) : List String :=
  (vals.filterMap id).flatMap splitTags

/-- The `theme_counts` dict after the loop of lines 261–265. -/
def themeCountsDict (vals : List (Option String)) : List (String × Nat) :=
  (flatTags vals).foldl addTag []

/-- Line 266: `sorted(theme_counts.items(), key := minus count)` —
Python `sorted` is stable, so this is the stable descending-count sort
of the insertion-ordered dict. -/
def themeTable (vals : List (Option String)) : List (String × Nat) :=
  List.insertionSort (Desc Prod.snd) (themeCountsDict vals)

/-- First-seen order: the keys of a Python dict fed by a left-to-right
counting loop, i.e. the distinct elements of `ts` in order of first
occurrence. -/
def firstKeys : List String → List String
  | [] => []
  | t :: ts => t :: (firstKeys ts).filter fun x => x ≠ t

/-- Index of the first occurrence of `x` in a list (length of the list
when absent). -/
def firstIdx (x : String) : List String → Nat
  | [] => 0
  | t :: ts => if x = t then 0 else firstIdx x ts + 1

/-- The key list of a counting dict seeded with keys `ks` and then fed
the tags `ts` left to right. -/
def extKeys (ks ts : List String) : List String :=
  ts.foldl (fun a t => if t ∈ a then a else a ++ [t]) ks

/-- A concrete two-row raw table used as an evaluation example. -/
def exampleTable : Table :=
  [("Timestamp", [some "good", some "bad"]),
   ("Email", [some "A@x.com", none])]

/-- A concrete tolerant timestamp parser used as an evaluation example:
it parses only the string `good`. -/
def exampleParse (s : String) : Option String :=
  if s = "good" then some "G" else none

/-- The identity renderer used as an evaluation example. -/
def exampleFmt (s : String) : String := s

/-! ## Helper lemmas -/

section StableSortLemmas

variable {α β : Type} [LinearOrder β]

theorem pairwise_orderedInsert_descTie (k : α → β) (R : α → α → Prop) (x : α) :
    ∀ s : List α, s.Pairwise (DescTie k R) → (∀ y ∈ s, R x y) →
      (List.orderedInsert (Desc k) x s).Pairwise (DescTie k R) := by
  intro s
  induction s with
  | nil => intro _ _; simp
  | cons y ys ih =>
    intro hs hR
    rw [List.pairwise_cons] at hs
    rw [List.orderedInsert]
    by_cases h : Desc k x y
    · rw [if_pos h]
      have hyx : k y ≤ k x := h
      refine List.Pairwise.cons ?_ (List.Pairwise.cons hs.1 hs.2)
      intro z hz
      rcases List.mem_cons.mp hz with rfl | hz
      · rcases lt_or_eq_of_le hyx with hlt | heq
        · exact Or.inl hlt
        · exact Or.inr ⟨heq.symm, hR z (List.mem_cons_self _ _)⟩
      · rcases hs.1 z hz with hlt | ⟨heq, _⟩
        · exact Or.inl (lt_of_lt_of_le hlt hyx)
        · rcases lt_or_eq_of_le (heq ▸ hyx) with hlt | heq2
          · exact Or.inl hlt
          · exact Or.inr ⟨heq2.symm, hR z (List.mem_cons_of_mem _ hz)⟩
    · rw [if_neg h]
      have hxy : k x < k y := lt_of_not_le h
      refine List.Pairwise.cons ?_ ?_
      · intro z hz
        rcases (List.mem_orderedInsert _).mp hz with rfl | hz
        · exact Or.inl hxy
        · exact hs.1 z hz
      · exact ih hs.2 fun z hz => hR z (List.mem_cons_of_mem _ hz)

theorem pairwise_insertionSort_descTie (k : α → β) (R : α → α → Prop) :
    ∀ l : List α, l.Pairwise R →
      (List.insertionSort (Desc k) l).Pairwise (DescTie k R) := by
  intro l
  induction l with
  | nil => intro _; simp
  | cons x l ih =>
    intro hp
    rw [List.pairwise_cons] at hp
    rw [List.insertionSort]
    refine pairwise_orderedInsert_descTie k R x _ (ih hp.2) ?_
    intro y hy
    exact hp.1 y ((List.mem_insertionSort _).mp hy)

end StableSortLemmas

section CountLemmas

variable {α : Type}

theorem sum_map_addf (l : List α) (f g : α → Nat) :
    (l.map fun x => f x + g x).sum = (l.map f).sum + (l.map g).sum := by
  induction l with
  | nil => simp
  | cons a l ih => simp [ih]; omega

theorem sum_map_indicator [DecidableEq α] (m : List α) (a : α) :
    (m.map fun x => if a == x then 1 else 0).sum = m.count a := by
  induction m with
  | nil => simp
  | cons b m ih =>
    rw [List.map_cons, List.sum_cons, List.count_cons, ih]
    by_cases h : a = b
    · subst h
      simp [Nat.add_comm]
    · have hab : (a == b) = false := beq_false_of_ne h
      have hba : (b == a) = false := beq_false_of_ne (Ne.symm h)
      rw [hab, hba]
      simp

theorem filterMap_id_map_optionMap {β₁ β₂ : Type} (f : β₁ → β₂)
    (vals : List (Option β₁)) :
    (vals.map (Option.map f)).filterMap id = (vals.filterMap id).map f := by
  induction vals with
  | nil => rfl
  | cons v vals ih => cases v <;> simp [ih]

theorem sum_count_dedup [DecidableEq α] (l : List α) :
    (l.dedup.map fun x => l.count x).sum = l.length := by
  induction l with
  | nil => simp
  | cons a t ih =>
    have hcnt : ∀ x, (a :: t).count x = t.count x + if a == x then 1 else 0 := by
      intro x
      rw [List.count_cons]
    by_cases h : a ∈ t
    · rw [List.dedup_cons_of_mem h]
      calc (t.dedup.map fun x => (a :: t).count x).sum
          = (t.dedup.map fun x => t.count x + if a == x then 1 else 0).sum := by
            exact congrArg List.sum (List.map_congr_left fun x _ => hcnt x)
        _ = (t.dedup.map fun x => t.count x).sum +
            (t.dedup.map fun x => if a == x then 1 else 0).sum :=
            sum_map_addf _ _ _
        _ = t.length + t.dedup.count a := by rw [ih, sum_map_indicator]
        _ = t.length + 1 := by rw [List.count_dedup, if_pos h]
        _ = (a :: t).length := by simp [Nat.add_comm]
    · rw [List.dedup_cons_of_not_mem h]
      have hca : (a :: t).count a = t.count a + 1 := by
        rw [List.count_cons]; simp
      have h0 : t.count a = 0 := List.count_eq_zero.mpr h
      calc ((a :: t.dedup).map fun x => (a :: t).count x).sum
          = (a :: t).count a + (t.dedup.map fun x => (a :: t).count x).sum := by
            simp
        _ = (t.count a + 1) +
            ((t.dedup.map fun x => t.count x).sum +
              (t.dedup.map fun x => if a == x then 1 else 0).sum) := by
            rw [hca, ← sum_map_addf]
            exact congrArg _ (congrArg List.sum (List.map_congr_left fun x _ => hcnt x))
        _ = 1 + (t.length + t.dedup.count a) := by rw [h0, ih, sum_map_indicator]
        _ = 1 + (t.length + 0) := by rw [List.count_dedup, if_neg h]
        _ = (a :: t).length := by simp [Nat.add_comm]

end CountLemmas

section StrOrderLemmas

theorem lexLeB_cons (x y : Char) (xs ys : List Char) :
    lexLeB (x :: xs) (y :: ys) =
      if x.toNat < y.toNat then true
      else if y.toNat < x.toNat then false
      else lexLeB xs ys := by
  rw [lexLeB]

theorem lexLeB_nil_left (m : List Char) : lexLeB [] m = true := by
  cases m <;> rfl

theorem lexLeB_cons_nil (x : Char) (xs : List Char) :
    lexLeB (x :: xs) [] = false := rfl

theorem lexLeB_refl : ∀ l : List Char, lexLeB l l = true
  | [] => rfl
  | x :: xs => by
    rw [lexLeB_cons, if_neg (lt_irrefl _), if_neg (lt_irrefl _)]
    exact lexLeB_refl xs

theorem lexLeB_total : ∀ l m : List Char, lexLeB l m = true ∨ lexLeB m l = true
  | [], m => Or.inl (lexLeB_nil_left m)
  | _ :: _, [] => Or.inr (lexLeB_nil_left _)
  | x :: xs, y :: ys => by
    rcases Nat.lt_trichotomy x.toNat y.toNat with h | h | h
    · left
      rw [lexLeB_cons, if_pos h]
    · rw [lexLeB_cons, lexLeB_cons, if_neg (by omega), if_neg (by omega),
        if_neg (by omega), if_neg (by omega)]
      exact lexLeB_total xs ys
    · right
      rw [lexLeB_cons, if_pos h]

theorem lexLeB_trans : ∀ l m n : List Char,
    lexLeB l m = true → lexLeB m n = true → lexLeB l n = true
  | [], _, n => fun _ _ => lexLeB_nil_left n
  | _ :: _, [], _ => fun h1 _ => absurd h1 (by rw [lexLeB_cons_nil]; simp)
  | _ :: _, _ :: _, [] => fun _ h2 => absurd h2 (by rw [lexLeB_cons_nil]; simp)
  | x :: xs, y :: ys, z :: zs => by
    intro h1 h2
    rw [lexLeB_cons] at h1 h2 ⊢
    rcases Nat.lt_trichotomy x.toNat y.toNat with hxy | hxy | hxy <;>
      rcases Nat.lt_trichotomy y.toNat z.toNat with hyz | hyz | hyz
    · rw [if_pos (by omega)]
    · rw [if_pos (by omega)]
    · rw [if_neg (by omega), if_pos hyz] at h2
      exact absurd h2 (by simp)
    · rw [if_pos (by omega)]
    · rw [if_neg (by omega), if_neg (by omega)]
      rw [if_neg (by omega), if_neg (by omega)] at h1
      rw [if_neg (by omega), if_neg (by omega)] at h2
      exact lexLeB_trans xs ys zs h1 h2
    · rw [if_neg (by omega), if_pos hyz] at h2
      exact absurd h2 (by simp)
    · rw [if_neg (by omega), if_pos hxy] at h1
      exact absurd h1 (by simp)
    · rw [if_neg (by omega), if_pos hxy] at h1
      exact absurd h1 (by simp)
    · rw [if_neg (by omega), if_pos hxy] at h1
      exact absurd h1 (by simp)

theorem lexLeB_antisymm : ∀ l m : List Char,
    lexLeB l m = true → lexLeB m l = true → l = m
  | [], [] => fun _ _ => rfl
  | [], _ :: _ => fun _ h2 => absurd h2 (by rw [lexLeB_cons_nil]; simp)
  | _ :: _, [] => fun h1 _ => absurd h1 (by rw [lexLeB_cons_nil]; simp)
  | x :: xs, y :: ys => by
    intro h1 h2
    rw [lexLeB_cons] at h1 h2
    by_cases hxy : x.toNat < y.toNat
    · rw [if_neg (by omega), if_pos hxy] at h2
      exact absurd h2 (by simp)
    · by_cases hyx : y.toNat < x.toNat
      · rw [if_neg hxy, if_pos hyx] at h1
        exact absurd h1 (by simp)
      · have hn : x.toNat = y.toNat := by omega
        have hx : x = y := Char.eq_of_val_eq (UInt32.toNat.inj hn)
        rw [if_neg hxy, if_neg hyx] at h1
        rw [if_neg hyx, if_neg hxy] at h2
        rw [hx, lexLeB_antisymm xs ys h1 h2]

theorem strLeB_refl (a : String) : strLeB a a = true :=
  lexLeB_refl a.data

theorem strLeB_total (a b : String) : strLeB a b = true ∨ strLeB b a = true :=
  lexLeB_total a.data b.data

theorem strLeB_trans {a b c : String} (h1 : strLeB a b = true)
    (h2 : strLeB b c = true) : strLeB a c = true :=
  lexLeB_trans a.data b.data c.data h1 h2

theorem strLeB_antisymm {a b : String} (h1 : strLeB a b = true)
    (h2 : strLeB b a = true) : a = b := by
  cases a with
  | mk la =>
    cases b with
    | mk lb =>
      rw [lexLeB_antisymm la lb h1 h2]

theorem okeyLeB_refl (a : Option String) : okeyLeB a a = true := by
  cases a with
  | none => rfl
  | some s => exact strLeB_refl s

theorem okeyLeB_total (a b : Option String) :
    okeyLeB a b = true ∨ okeyLeB b a = true := by
  cases a <;> cases b <;> first
    | exact Or.inl rfl
    | exact Or.inr rfl
    | exact strLeB_total _ _

theorem okeyLeB_trans {a b c : Option String} (h1 : okeyLeB a b = true)
    (h2 : okeyLeB b c = true) : okeyLeB a c = true := by
  cases a <;> cases b <;> cases c <;> simp_all [okeyLeB]
  exact strLeB_trans h1 h2

theorem okeyLeB_antisymm {a b : Option String} (h1 : okeyLeB a b = true)
    (h2 : okeyLeB b a = true) : a = b := by
  cases a <;> cases b <;> simp_all [okeyLeB]
  exact strLeB_antisymm h1 h2

theorem okeyLtB_iff {a b : Option String} :
    okeyLtB a b = true ↔ (okeyLeB a b = true ∧ okeyLeB b a = false) := by
  simp [okeyLtB]

theorem okeyLtB_irrefl (a : Option String) : okeyLtB a a = false := by
  simp [okeyLtB, okeyLeB_refl]

theorem okeyLtB_trans {a b c : Option String} (h1 : okeyLtB a b = true)
    (h2 : okeyLtB b c = true) : okeyLtB a c = true := by
  rw [okeyLtB_iff] at h1 h2 ⊢
  refine ⟨okeyLeB_trans h1.1 h2.1, ?_⟩
  cases hca : okeyLeB c a with
  | false => rfl
  | true =>
    have : okeyLeB c b = true := okeyLeB_trans hca h1.1
    rw [h2.2] at this
    exact absurd this (by simp)

end StrOrderLemmas

section OptOrderLemmas

variable {γ : Type} [LinearOrder γ] [DecidableEq γ]

theorem optLeB_refl (a : Option γ) : optLeB a a = true := by
  cases a <;> simp [optLeB]

theorem optLeB_total (a b : Option γ) : optLeB a b = true ∨ optLeB b a = true := by
  cases a <;> cases b <;> simp [optLeB, le_total]

theorem optLeB_trans {a b c : Option γ} (h1 : optLeB a b = true)
    (h2 : optLeB b c = true) : optLeB a c = true := by
  cases a <;> cases b <;> cases c <;> simp_all [optLeB]
  exact le_trans h1 h2

theorem optLeB_antisymm {a b : Option γ} (h1 : optLeB a b = true)
    (h2 : optLeB b a = true) : a = b := by
  cases a <;> cases b <;> simp_all [optLeB]
  exact le_antisymm h1 h2

theorem optLtB_iff {a b : Option γ} :
    optLtB a b = true ↔ (optLeB a b = true ∧ optLeB b a = false) := by
  simp [optLtB]

theorem optLtB_irrefl (a : Option γ) : optLtB a a = false := by
  simp [optLtB, optLeB_refl]

theorem optLtB_trans {a b c : Option γ} (h1 : optLtB a b = true)
    (h2 : optLtB b c = true) : optLtB a c = true := by
  rw [optLtB_iff] at h1 h2 ⊢
  refine ⟨optLeB_trans h1.1 h2.1, ?_⟩
  cases hca : optLeB c a with
  | false => rfl
  | true =>
    have : optLeB c b = true := optLeB_trans hca h1.1
    rw [h2.2] at this
    exact absurd this (by simp)

theorem optLtB_asymm {a b : Option γ} (h : optLtB a b = true) :
    optLtB b a = false := by
  rw [optLtB_iff] at h
  cases hba : optLtB b a with
  | false => rfl
  | true =>
    rw [optLtB_iff] at hba
    rw [hba.2] at h
    exact absurd h.1 (by simp)

end OptOrderLemmas

section VRowOrder

theorem vrowLe_total (a b : VRow) : vrowLe a b = true ∨ vrowLe b a = true := by
  unfold vrowLe
  by_cases hk : a.key = b.key
  · rcases optLeB_total a.ts b.ts with h | h
    · left
      simp [hk, h]
    · right
      simp [hk.symm, h]
  · rcases okeyLeB_total a.key b.key with h | h
    · have hfa : okeyLeB b.key a.key = false := by
        cases hba : okeyLeB b.key a.key with
        | false => rfl
        | true => exact absurd (okeyLeB_antisymm h hba) hk
      left
      have : okeyLtB a.key b.key = true := okeyLtB_iff.mpr ⟨h, hfa⟩
      simp [this]
    · have hfa : okeyLeB a.key b.key = false := by
        cases hab : okeyLeB a.key b.key with
        | false => rfl
        | true => exact absurd (okeyLeB_antisymm hab h) hk
      right
      have : okeyLtB b.key a.key = true := okeyLtB_iff.mpr ⟨h, hfa⟩
      simp [this]

theorem vrowLe_trans {a b c : VRow} (h1 : vrowLe a b = true)
    (h2 : vrowLe b c = true) : vrowLe a c = true := by
  unfold vrowLe at h1 h2 ⊢
  rw [Bool.or_eq_true] at h1 h2 ⊢
  rcases h1 with h1 | h1 <;> rcases h2 with h2 | h2
  · exact Or.inl (okeyLtB_trans h1 h2)
  · rw [Bool.and_eq_true] at h2
    have hk : b.key = c.key := by
      have := h2.1
      simpa using this
    exact Or.inl (hk ▸ h1)
  · rw [Bool.and_eq_true] at h1
    have hk : a.key = b.key := by
      have := h1.1
      simpa using this
    exact Or.inl (hk ▸ h2)
  · rw [Bool.and_eq_true] at h1 h2
    have hk1 : a.key = b.key := by
      have := h1.1
      simpa using this
    have hk2 : b.key = c.key := by
      have := h2.1
      simpa using this
    refine Or.inr ?_
    rw [Bool.and_eq_true]
    exact ⟨by simp [hk1.trans hk2], optLeB_trans h1.2 h2.2⟩

instance : IsTotal VRow VRowRel :=
  ⟨fun a b => vrowLe_total a b⟩

instance : IsTrans VRow VRowRel :=
  ⟨fun _ _ _ h1 h2 => vrowLe_trans h1 h2⟩

theorem vrowLe_ts_of_key_eq {a b : VRow} (h : vrowLe a b = true)
    (hk : a.key = b.key) : optLeB a.ts b.ts = true := by
  unfold vrowLe at h
  rw [Bool.or_eq_true] at h
  rcases h with h | h
  · rw [hk] at h
    rw [okeyLtB_irrefl] at h
    exact absurd h (by simp)
  · rw [Bool.and_eq_true] at h
    exact h.2

end VRowOrder

section DedupLemmas

theorem dedupKeyAux_sub : ∀ (l : List VRow) (seen : List (Option String)),
    ∀ r ∈ dedupKeyAux seen l, r ∈ l := by
  intro l
  induction l with
  | nil => intro seen r hr; simp [dedupKeyAux] at hr
  | cons y ys ih =>
    intro seen r hr
    rw [dedupKeyAux] at hr
    by_cases h : y.key ∈ seen
    · rw [if_pos h] at hr
      exact List.mem_cons_of_mem _ (ih seen r hr)
    · rw [if_neg h] at hr
      rcases List.mem_cons.mp hr with rfl | hr
      · exact List.mem_cons_self _ _
      · exact List.mem_cons_of_mem _ (ih _ r hr)

theorem dedupKeyAux_keys : ∀ (l : List VRow) (seen : List (Option String)),
    ((dedupKeyAux seen l).map (·.key)).Nodup ∧
    ∀ r ∈ dedupKeyAux seen l, r.key ∉ seen := by
  intro l
  induction l with
  | nil => intro seen; simp [dedupKeyAux]
  | cons y ys ih =>
    intro seen
    rw [dedupKeyAux]
    by_cases h : y.key ∈ seen
    · rw [if_pos h]
      exact ih seen
    · rw [if_neg h]
      rcases ih (y.key :: seen) with ⟨hnd, hns⟩
      refine ⟨?_, ?_⟩
      · rw [List.map_cons, List.nodup_cons]
        refine ⟨?_, hnd⟩
        intro hmem
        rcases List.mem_map.mp hmem with ⟨r, hr, hkey⟩
        exact hns r hr (hkey ▸ List.mem_cons_self _ _)
      · intro r hr
        rcases List.mem_cons.mp hr with rfl | hr
        · exact h
        · exact fun hc => hns r hr (List.mem_cons_of_mem _ hc)

theorem dedupKeyAux_cover : ∀ (l : List VRow) (seen : List (Option String))
    (k : Option String), k ∉ seen →
    (k ∈ l.map (·.key) ↔ k ∈ (dedupKeyAux seen l).map (·.key)) := by
  intro l
  induction l with
  | nil => intro seen k _; simp [dedupKeyAux]
  | cons y ys ih =>
    intro seen k hk
    rw [dedupKeyAux]
    by_cases h : y.key ∈ seen
    · rw [if_pos h, List.map_cons, List.mem_cons]
      constructor
      · rintro (rfl | hm)
        · exact absurd h hk
        · exact (ih seen k hk).mp hm
      · intro hm
        exact Or.inr ((ih seen k hk).mpr hm)
    · rw [if_neg h, List.map_cons, List.map_cons, List.mem_cons, List.mem_cons]
      constructor
      · rintro (rfl | hm)
        · exact Or.inl rfl
        · by_cases hky : k = y.key
          · exact Or.inl hky
          · refine Or.inr ((ih (y.key :: seen) k ?_).mp hm)
            intro hc
            rcases List.mem_cons.mp hc with hc | hc
            · exact hky hc
            · exact hk hc
      · rintro (rfl | hm)
        · exact Or.inl rfl
        · rcases List.mem_map.mp hm with ⟨r, hr, rfl⟩
          exact Or.inr (List.mem_map_of_mem _ (dedupKeyAux_sub ys _ r hr))

theorem dedupKeyAux_min_ts : ∀ (l : List VRow), l.Pairwise VRowRel →
    ∀ (seen : List (Option String)), ∀ r ∈ dedupKeyAux seen l,
    ∀ x ∈ l, x.key = r.key → optLeB r.ts x.ts = true := by
  intro l
  induction l with
  | nil => intro _ seen r hr; simp [dedupKeyAux] at hr
  | cons y ys ih =>
    intro hp seen r hr x hx hkey
    rw [List.pairwise_cons] at hp
    rw [dedupKeyAux] at hr
    by_cases h : y.key ∈ seen
    · rw [if_pos h] at hr
      rcases List.mem_cons.mp hx with rfl | hx
      · have : r.key ∉ seen := (dedupKeyAux_keys ys seen).2 r hr
        exact absurd (hkey ▸ h) this
      · exact ih hp.2 seen r hr x hx hkey
    · rw [if_neg h] at hr
      rcases List.mem_cons.mp hr with rfl | hr
      · rcases List.mem_cons.mp hx with rfl | hx
        · exact optLeB_refl _
        · exact vrowLe_ts_of_key_eq (hp.1 x hx) hkey.symm
      · have hrk : r.key ∉ y.key :: seen := (dedupKeyAux_keys ys _).2 r hr
        rcases List.mem_cons.mp hx with rfl | hx
        · exact absurd (hkey ▸ List.mem_cons_self x.key seen) hrk
        · exact ih hp.2 _ r hr x hx hkey

theorem dedupKey_sub (l : List VRow) : ∀ r ∈ dedupKey l, r ∈ l :=
  dedupKeyAux_sub l []

theorem dedupKey_keys_nodup (l : List VRow) :
    ((dedupKey l).map (·.key)).Nodup :=
  (dedupKeyAux_keys l []).1

theorem dedupKey_keys_cover (l : List VRow) (k : Option String) :
    k ∈ l.map (·.key) ↔ k ∈ (dedupKey l).map (·.key) :=
  dedupKeyAux_cover l [] k (by simp)

theorem dedupKey_min_ts (l : List VRow) (hp : l.Pairwise VRowRel) :
    ∀ r ∈ dedupKey l, ∀ x ∈ l, x.key = r.key → optLeB r.ts x.ts = true :=
  dedupKeyAux_min_ts l hp []

end DedupLemmas

section DictLemmas

theorem firstKeys_nodup : ∀ ts : List String, (firstKeys ts).Nodup := by
  intro ts
  induction ts with
  | nil => simp [firstKeys]
  | cons t ts ih =>
    rw [firstKeys, List.nodup_cons]
    refine ⟨?_, ih.filter _⟩
    intro hmem
    have := List.of_mem_filter hmem
    rw [decide_eq_true_eq] at this
    exact this rfl

theorem firstKeys_pairwise : ∀ ts : List String,
    (firstKeys ts).Pairwise fun a b => firstIdx a ts < firstIdx b ts := by
  intro ts
  induction ts with
  | nil => simp [firstKeys]
  | cons t ts ih =>
    rw [firstKeys]
    refine List.Pairwise.cons ?_ ?_
    · intro b hb
      have hbt : b ≠ t := by
        have := List.of_mem_filter hb
        rwa [decide_eq_true_eq] at this
      rw [firstIdx, firstIdx, if_pos rfl, if_neg hbt]
      exact Nat.succ_pos _
    · refine List.Pairwise.imp_of_mem ?_
        (List.Pairwise.sublist (List.filter_sublist (firstKeys ts)) ih)
      intro a b ha hb hlt
      have hat : a ≠ t := by
        have := List.of_mem_filter ha
        rwa [decide_eq_true_eq] at this
      have hbt : b ≠ t := by
        have := List.of_mem_filter hb
        rwa [decide_eq_true_eq] at this
      rw [firstIdx, firstIdx, if_neg hat, if_neg hbt]
      exact Nat.succ_lt_succ hlt

theorem extKeys_nil_right (ks : List String) : extKeys ks [] = ks := rfl

theorem extKeys_cons (ks : List String) (t : String) (ts : List String) :
    extKeys ks (t :: ts) =
      extKeys (if t ∈ ks then ks else ks ++ [t]) ts := by
  rw [extKeys, List.foldl_cons]
  rfl

theorem extKeys_eq_append_filter : ∀ (ts ks : List String),
    extKeys ks ts = ks ++ (firstKeys ts).filter fun x => decide (x ∉ ks) := by
  intro ts
  induction ts with
  | nil => intro ks; simp [extKeys_nil_right, firstKeys]
  | cons t ts ih =>
    intro ks
    rw [extKeys_cons, firstKeys]
    by_cases h : t ∈ ks
    · rw [if_pos h, ih ks, List.filter_cons]
      rw [if_neg (by simpa using h)]
      congr 1
      rw [List.filter_filter]
      refine List.filter_congr ?_
      intro x _
      by_cases hx : x ∈ ks
      · simp [hx]
      · have hxt : x ≠ t := fun he => hx (he ▸ h)
        simp [hx, hxt]
    · rw [if_neg h, ih (ks ++ [t]), List.filter_cons]
      rw [if_pos (by simpa using h)]
      rw [List.append_assoc, List.singleton_append]
      congr 2
      rw [List.filter_filter]
      refine List.filter_congr ?_
      intro x _
      by_cases hxt : x = t
      · simp [hxt]
      · by_cases hx : x ∈ ks
        · simp [hx, List.mem_append]
        · simp [hx, hxt, List.mem_append]

theorem foldl_addTag_eq : ∀ (ts ks : List String) (g : String → Nat),
    ks.Nodup → (∀ x, x ∉ ks → g x = 0) →
    ts.foldl addTag (ks.map fun x => (x, g x)) =
      (extKeys ks ts).map fun x => (x, g x + ts.count x) := by
  intro ts
  induction ts with
  | nil =>
    intro ks g _ _
    rw [List.foldl_nil, extKeys_nil_right]
    refine List.map_congr_left ?_
    intro x _
    simp
  | cons t ts ih =>
    intro ks g hnd hz
    rw [List.foldl_cons, extKeys_cons]
    by_cases h : t ∈ ks
    · have hany : (ks.map fun x => (x, g x)).any (fun p => p.1 == t) = true := by
        exact List.any_eq_true.mpr ⟨(t, g t), List.mem_map_of_mem _ h, by simp⟩
      have hstep : addTag (ks.map fun x => (x, g x)) t =
          ks.map fun x => (x, if x = t then g x + 1 else g x) := by
        rw [addTag, if_pos hany, List.map_map]
        refine List.map_congr_left ?_
        intro x _
        by_cases hx : x = t
        · simp [hx]
        · simp [hx]
      rw [hstep, if_pos h,
        ih ks (fun x => if x = t then g x + 1 else g x) hnd
          (fun x hx => by
            have hxt : x ≠ t := fun he => hx (he ▸ h)
            simp [hxt, hz x hx])]
      refine List.map_congr_left ?_
      intro x _
      by_cases hx : x = t
      · subst hx
        rw [if_pos rfl, List.count_cons]
        simp [Nat.add_comm, Nat.add_assoc, Nat.add_left_comm]
      · rw [if_neg hx, List.count_cons]
        have : (t == x) = false := beq_false_of_ne fun he => hx he.symm
        simp [this]
    · have hany : (ks.map fun x => (x, g x)).any (fun p => p.1 == t) = false := by
        cases hc : (ks.map fun x => (x, g x)).any (fun p => p.1 == t) with
        | false => rfl
        | true =>
          rcases List.any_eq_true.mp hc with ⟨p, hp, hbe⟩
          rcases List.mem_map.mp hp with ⟨x, hx, rfl⟩
          rw [beq_iff_eq] at hbe
          exact absurd (hbe ▸ hx) h
      have hstep : addTag (ks.map fun x => (x, g x)) t =
          (ks ++ [t]).map fun x => (x, if x = t then 1 else g x) := by
        rw [addTag, if_neg (by simp [hany]), List.map_append]
        congr 1
        · refine List.map_congr_left ?_
          intro x hx
          have hxt : x ≠ t := fun he => h (he ▸ hx)
          simp [hxt]
        · simp
      have hnd2 : (ks ++ [t]).Nodup := by
        rw [List.nodup_append]
        exact ⟨hnd, List.nodup_singleton t, List.disjoint_singleton.mpr h⟩
      rw [hstep, if_neg h,
        ih (ks ++ [t]) (fun x => if x = t then 1 else g x) hnd2
          (fun x hx => by
            have hxk : x ∉ ks := fun hc => hx (List.mem_append_left _ hc)
            have hxt : x ≠ t := fun he =>
              hx (List.mem_append_right _ (he ▸ List.mem_singleton_self t))
            simp [hxt, hz x hxk])]
      refine List.map_congr_left ?_
      intro x _
      by_cases hx : x = t
      · subst hx
        rw [if_pos rfl, List.count_cons, hz x h]
        simp [Nat.add_comm]
      · rw [if_neg hx, List.count_cons]
        have : (t == x) = false := beq_false_of_ne fun he => hx he.symm
        simp [this]

theorem themeCountsDict_eq (vals : List (Option String)) :
    themeCountsDict vals =
      (firstKeys (flatTags vals)).map fun x => (x, (flatTags vals).count x) := by
  rw [themeCountsDict]
  have h0 : ([] : List (String × Nat)) =
      ([] : List String).map fun x => (x, (fun _ : String => 0) x) := rfl
  rw [h0, foldl_addTag_eq (flatTags vals) [] (fun _ => 0) List.nodup_nil
    (fun _ _ => rfl)]
  rw [extKeys_eq_append_filter]
  rw [List.nil_append]
  have : ((firstKeys (flatTags vals)).filter fun x =>
      decide (x ∉ ([] : List String))) = firstKeys (flatTags vals) := by
    refine List.filter_eq_self.mpr ?_
    intro x _
    simp
  rw [this]
  refine List.map_congr_left ?_
  intro x _
  simp

end DictLemmas

section TableLemmas

theorem colNames_append (A B : Table) :
    colNames (A ++ B) = colNames A ++ colNames B := by
  simp [colNames]

theorem lookup_isSome_of_mem : ∀ (t : Table) (c : String),
    c ∈ colNames t → (t.lookup c).isSome = true := by
  intro t
  induction t with
  | nil => intro c hc; simp [colNames] at hc
  | cons q t ih =>
    intro c hc
    by_cases h : c = q.1
    · simp [List.lookup, h]
    · rw [colNames, List.map_cons, List.mem_cons] at hc
      rcases hc with hc | hc
      · exact absurd hc h
      · simpa [List.lookup, beq_false_of_ne h] using ih c hc

theorem lookup_mem : ∀ (t : Table) (c : String) (v : List (Option String)),
    t.lookup c = some v → (c, v) ∈ t := by
  intro t
  induction t with
  | nil => intro c v h; simp [List.lookup] at h
  | cons q t ih =>
    intro c v h
    by_cases hc : c = q.1
    · subst hc
      simp [List.lookup] at h
      subst h
      simp
    · simp [List.lookup, beq_false_of_ne hc] at h
      exact List.mem_cons_of_mem _ (ih c v h)

theorem lookup_append_left : ∀ (A B : Table) (c : String),
    c ∈ colNames A → (A ++ B).lookup c = A.lookup c := by
  intro A B
  induction A with
  | nil => intro c hc; simp [colNames] at hc
  | cons q A ih =>
    intro c hc
    by_cases h : c = q.1
    · simp [List.lookup, h]
    · rw [colNames, List.map_cons, List.mem_cons] at hc
      rcases hc with hc | hc
      · exact absurd hc h
      · rw [List.cons_append]
        simp only [List.lookup, beq_false_of_ne h]
        exact ih c hc

theorem colNames_map_set (t2 : Table) (c0 : String)
    (newcol : List (Option String)) :
    colNames (t2.map fun q => if q.1 = c0 then (q.1, newcol) else q) =
      colNames t2 := by
  rw [colNames, colNames, List.map_map]
  refine List.map_congr_left ?_
  intro q _
  by_cases h : q.1 = c0 <;> simp [h]

theorem lookup_map_set : ∀ (t2 : Table) (c0 : String)
    (newcol : List (Option String)), c0 ∈ colNames t2 →
    (t2.map fun q => if q.1 = c0 then (q.1, newcol) else q).lookup c0 =
      some newcol := by
  intro t2 c0 newcol
  induction t2 with
  | nil => intro hc; simp [colNames] at hc
  | cons q t2 ih =>
    intro hc
    by_cases h : q.1 = c0
    · rw [List.map_cons, if_pos h]
      simp [List.lookup, h]
    · rw [colNames, List.map_cons, List.mem_cons] at hc
      rcases hc with hc | hc
      · exact absurd hc.symm h
      · rw [List.map_cons, if_neg h]
        simp only [List.lookup, beq_false_of_ne fun he => h he.symm]
        exact ih hc

theorem mem_map_set (t2 : Table) (c0 : String)
    (newcol : List (Option String)) (q : String × List (Option String)) :
    q ∈ (t2.map fun r => if r.1 = c0 then (r.1, newcol) else r) →
      q ∈ t2 ∨ q.2 = newcol := by
  intro hq
  rcases List.mem_map.mp hq with ⟨r, hr, rfl⟩
  by_cases h : r.1 = c0
  · rw [if_pos h]
    exact Or.inr rfl
  · rw [if_neg h]
    exact Or.inl hr

theorem ensureStep_nRows (acc : Table) (c : String) :
    nRows (ensureStep acc c) = nRows acc := by
  rw [ensureStep]
  by_cases h : c ∈ colNames acc
  · rw [if_pos h]
  · rw [if_neg h]
    cases acc with
    | nil => simp [nRows]
    | cons q acc => simp [nRows]

theorem ensureStep_len (acc : Table) (c : String) (n : Nat)
    (hn : nRows acc = n) (hl : ∀ q ∈ acc, q.2.length = n) :
    ∀ q ∈ ensureStep acc c, q.2.length = n := by
  intro q hq
  rw [ensureStep] at hq
  by_cases h : c ∈ colNames acc
  · rw [if_pos h] at hq
    exact hl q hq
  · rw [if_neg h, List.mem_append] at hq
    rcases hq with hq | hq
    · exact hl q hq
    · rcases List.mem_singleton.mp hq with rfl
      simp [hn]

theorem ensureStep_names_mono (acc : Table) (c x : String)
    (hx : x ∈ colNames acc) : x ∈ colNames (ensureStep acc c) := by
  rw [ensureStep]
  by_cases h : c ∈ colNames acc
  · rwa [if_pos h]
  · rw [if_neg h, colNames_append, List.mem_append]
    exact Or.inl hx

theorem ensureStep_mem_self (acc : Table) (c : String) :
    c ∈ colNames (ensureStep acc c) := by
  rw [ensureStep]
  by_cases h : c ∈ colNames acc
  · rwa [if_pos h]
  · rw [if_neg h, colNames_append, List.mem_append]
    right
    simp [colNames]

theorem foldl_ensureStep_props (n : Nat) : ∀ (cs : List String) (acc : Table),
    nRows acc = n → (∀ q ∈ acc, q.2.length = n) →
    nRows (cs.foldl ensureStep acc) = n ∧
    (∀ q ∈ cs.foldl ensureStep acc, q.2.length = n) ∧
    (∀ x ∈ colNames acc, x ∈ colNames (cs.foldl ensureStep acc)) ∧
    (∀ c ∈ cs, c ∈ colNames (cs.foldl ensureStep acc)) := by
  intro cs
  induction cs with
  | nil =>
    intro acc hn hl
    exact ⟨hn, hl, fun x hx => hx, by simp⟩
  | cons c cs ih =>
    intro acc hn hl
    rw [List.foldl_cons]
    have hn2 : nRows (ensureStep acc c) = n := (ensureStep_nRows acc c).trans hn
    have hl2 := ensureStep_len acc c n hn hl
    rcases ih (ensureStep acc c) hn2 hl2 with ⟨h1, h2, h3, h4⟩
    refine ⟨h1, h2, ?_, ?_⟩
    · intro x hx
      exact h3 x (ensureStep_names_mono acc c x hx)
    · intro d hd
      rcases List.mem_cons.mp hd with rfl | hd
      · exact h3 d (ensureStep_mem_self acc d)
      · exact h4 d hd

theorem renameCols_nRows (t : Table) : nRows (renameCols t) = nRows t := by
  cases t with
  | nil => rfl
  | cons q t => rfl

theorem renameCols_len (t : Table) (n : Nat)
    (hl : ∀ q ∈ t, q.2.length = n) : ∀ q ∈ renameCols t, q.2.length = n := by
  intro q hq
  rcases List.mem_map.mp hq with ⟨r, hr, rfl⟩
  exact hl r hr

end TableLemmas

section ParticipantLemmas

theorem processRow_name_isSome (r : PRaw) :
    (processRow r).name.isSome = true := by
  simp [processRow, cleanCell]

theorem loadParticipants_eq (rows : List PRaw) :
    loadParticipants rows = rows.map processRow := by
  rw [loadParticipants]
  refine List.filter_eq_self.mpr ?_
  intro r hr
  rcases List.mem_map.mp hr with ⟨x, _, rfl⟩
  simpa using processRow_name_isSome x

theorem processRow_key_eq (r : PRaw) :
    (processRow r).participant_key =
      some (trimStr (lowerStr
        (if 0 < (trimStr (stringifyCell r.email)).length
          then trimStr (stringifyCell r.email)
          else trimStr (stringifyCell r.email_address)))) := by
  simp only [processRow, cleanCell, optLen, Option.isSome]
  split_ifs with h1 h2 h2
  · rfl
  · rcases h1 with ⟨_, hlen⟩
    exact absurd hlen h2
  · exact absurd ⟨by trivial, h2⟩ h1
  · rfl

end ParticipantLemmas

/-! ## Claim theorems -/

/-- Claim C1, counterexample: the claim says `participant_key` is the
first non-empty trimmed value among {primary email, secondary email,
instagram handle, display name}, lowercased; but on a row whose only
identifier is the instagram handle `IGHandle`, the code derives the key
`nan` (the stringified missing email) while the spec formula yields
`ighandle`. -/
theorem claim_C1_counterexample :
    (processRow ⟨none, none, none, none, some "IGHandle", none⟩).participant_key
        = some "nan" ∧
    participantKeySpec ⟨none, none, none, none, some "IGHandle", none⟩
        = some "ighandle" ∧
    (some "nan" : Option String) ≠ some "ighandle" := by
  refine ⟨by decide, by decide, by decide⟩

/-- Claim C1, amended: for every loaded participant record,
`participant_key` is the lowercased, trimmed cleaned primary-email cell
(a missing cell is first stringified to `nan`) when that cleaned value
is non-empty, and otherwise the cleaned secondary-email cell; the
instagram handle and display name are never consulted.  The claim's
scenario still holds: rows with emails `A@x.com` and `a@x.com ` both
resolve to participant_key `a@x.com`, hence count as one unique
participant. -/
theorem claim_C1_amended :
    (∀ r : PRaw, (processRow r).participant_key =
      some (trimStr (lowerStr
        (if 0 < (trimStr (stringifyCell r.email)).length
          then trimStr (stringifyCell r.email)
          else trimStr (stringifyCell r.email_address))))) ∧
    (processRow ⟨none, none, some "A@x.com", none, none, none⟩).participant_key
        = some "a@x.com" ∧
    (processRow ⟨none, none, some "a@x.com ", none, none, none⟩).participant_key
        = some "a@x.com" := by
  refine ⟨fun r => processRow_key_eq r, by decide, by decide⟩

/-- Witness for the amended claim C1 at the scenario row. -/
theorem claim_C1_amended_witness :
    (processRow ⟨none, none, some "A@x.com", none, none, none⟩).participant_key
      = some "a@x.com" :=
  claim_C1_amended.2.1

/-- Claim C2, counterexample: the claim says a row whose identifying
fields are all empty or absent is excluded entirely from the normalized
table; but the code retains it — the `dropna(subset := [name])` drops
nothing because the cleaned `name` column holds the string `nan`, not a
missing value.  The all-empty row survives with participant_key `nan`. -/
theorem claim_C2_counterexample :
    (loadParticipants [⟨none, none, none, none, none, none⟩]).length = 1 ∧
    (loadParticipants [⟨none, none, none, none, none, none⟩]).map
        (·.participant_key) = [some "nan"] := by
  refine ⟨by decide, by decide⟩

/-- Claim C2, amended: no input row is ever excluded from the
normalized participants table (the drop of rows lacking a name removes
nothing, because text cleaning stringifies missing names to `nan`), and
every retained record has a non-null `participant_key`. -/
theorem claim_C2_amended :
    ∀ rows : List PRaw,
      (loadParticipants rows).length = rows.length ∧
      ∀ r ∈ loadParticipants rows, r.participant_key.isSome = true := by
  intro rows
  rw [loadParticipants_eq]
  refine ⟨List.length_map _ _, ?_⟩
  intro r hr
  rcases List.mem_map.mp hr with ⟨x, _, rfl⟩
  rw [processRow_key_eq]
  rfl

/-- Witness for the amended claim C2 at a concrete one-row table. -/
theorem claim_C2_amended_witness :
    (loadParticipants [⟨none, some "Bob", none, none, none, none⟩]).length = 1 ∧
    (processRow ⟨none, some "Bob", none, none, none, none⟩).participant_key.isSome
      = true := by
  refine ⟨(claim_C2_amended _).1, ?_⟩
  exact (claim_C2_amended [⟨none, some "Bob", none, none, none, none⟩]).2 _
    (by decide)

/-- Claim C9: for every raw value of the session-type field (null and
empty included), `session_type_norm` is exactly one of
{Friday, Regular, Other}; it is `Friday` exactly when the lowercased
cleaned value contains `friday`, `Regular` exactly when it does not
contain `friday` but contains `regular`, and `Other` exactly when it
contains neither. -/
theorem claim_C9 :
    ∀ v : Option String,
      (sessionTypeNorm v = "Friday" ∨ sessionTypeNorm v = "Regular" ∨
        sessionTypeNorm v = "Other") ∧
      (sessionTypeNorm v = "Friday" ↔
        strContainsSub (lowerStr (trimStr (stringifyCell v))) "friday" = true) ∧
      (sessionTypeNorm v = "Regular" ↔
        (strContainsSub (lowerStr (trimStr (stringifyCell v))) "friday" = false ∧
         strContainsSub (lowerStr (trimStr (stringifyCell v))) "regular" = true)) ∧
      (sessionTypeNorm v = "Other" ↔
        (strContainsSub (lowerStr (trimStr (stringifyCell v))) "friday" = false ∧
         strContainsSub (lowerStr (trimStr (stringifyCell v))) "regular" = false)) := by
  intro v
  cases hF : strContainsSub (lowerStr (trimStr (stringifyCell v))) "friday" <;>
    cases hR : strContainsSub (lowerStr (trimStr (stringifyCell v))) "regular" <;>
      simp [sessionTypeNorm, cleanCell, hF, hR]

/-- Witness for claim C9 at a concrete session-type value. -/
theorem claim_C9_witness : sessionTypeNorm (some "FRIDAY special") = "Friday" :=
  ((claim_C9 (some "FRIDAY special")).2.1).mpr (by decide)

/-- Claim C10 (implicit, documenting actual behavior): the text-cleaning
step turns a missing cell of a cleaned string column into the literal
string `nan`; consequently every row — even one with no identifying
fields — gets the non-null participant_key `nan` when its email cell is
missing, the fallback chain through instagram and display name never
changes the key, and the drop of rows lacking a name removes nothing. -/
theorem claim_C10 :
    (cleanCell none = some "nan") ∧
    (∀ r : PRaw,
      (processRow { r with email := none }).participant_key = some "nan") ∧
    (∀ (r : PRaw) (i n : Option String),
      (processRow { r with instagram := i, name := n }).participant_key =
        (processRow r).participant_key) ∧
    (∀ rows : List PRaw, (loadParticipants rows).length = rows.length) ∧
    (∀ r : PRaw, (processRow r).participant_key.isSome = true) := by
  refine ⟨by decide, ?_, ?_, ?_, ?_⟩
  · intro r
    rw [processRow_key_eq]
    have he : ({ r with email := none } : PRaw).email = none := rfl
    rw [he, if_pos (by decide)]
    decide
  · intro r i n
    rw [processRow_key_eq, processRow_key_eq]
  · intro rows
    rw [loadParticipants_eq]
    exact List.length_map _ _
  · intro r
    rw [processRow_key_eq]
    rfl

/-- Claim C3: in Unique-participants mode, the view has exactly one row
per `participant_key` occurring in the session-type-filtered table —
distinct keys, every filtered key represented — and each kept row is a
filtered row whose parsed timestamp is least (missing timestamps
greatest) among the filtered rows of its key; deduplication thus acts
on the output of the categorical filter, never the unfiltered table. -/
theorem claim_C3 :
    ∀ (rows : List VRow) (pick : String),
      ((uniqueView rows pick).map (·.key)).Nodup ∧
      (∀ k : Option String,
        k ∈ (sessionFiltered rows pick).map (·.key) ↔
          k ∈ (uniqueView rows pick).map (·.key)) ∧
      (∀ r ∈ uniqueView rows pick,
        r ∈ sessionFiltered rows pick ∧
          ∀ x ∈ sessionFiltered rows pick, x.key = r.key →
            optLeB r.ts x.ts = true) := by
  intro rows pick
  simp only [uniqueView]
  have hperm : List.Perm (List.insertionSort VRowRel (sessionFiltered rows pick))
      (sessionFiltered rows pick) :=
    List.perm_insertionSort VRowRel (sessionFiltered rows pick)
  have hsort : List.Pairwise VRowRel
      (List.insertionSort VRowRel (sessionFiltered rows pick)) :=
    List.sorted_insertionSort VRowRel (sessionFiltered rows pick)
  refine ⟨dedupKey_keys_nodup _, ?_, ?_⟩
  · intro k
    rw [← dedupKey_keys_cover _ k]
    exact (hperm.map (·.key)).mem_iff.symm
  · intro r hr
    have hrs := dedupKey_sub _ r hr
    refine ⟨hperm.mem_iff.mp hrs, ?_⟩
    intro x hx hxk
    exact dedupKey_min_ts _ hsort r hr x (hperm.mem_iff.mpr hx) hxk

/-- Witness for claim C3: on a two-row table with one key, the kept row
is in the filtered table and carries the earlier timestamp. -/
theorem claim_C3_witness :
    ((⟨some "a", some 1, "Regular"⟩ : VRow) ∈
      sessionFiltered
        [⟨some "a", some 5, "Regular"⟩, ⟨some "a", some 1, "Regular"⟩] "All") ∧
    optLeB (some 1 : Option Nat) (some 5 : Option Nat) = true := by
  have h := (claim_C3
    [⟨some "a", some 5, "Regular"⟩, ⟨some "a", some 1, "Regular"⟩] "All").2.2
  have hm : (⟨some "a", some 1, "Regular"⟩ : VRow) ∈ uniqueView
      [⟨some "a", some 5, "Regular"⟩, ⟨some "a", some 1, "Regular"⟩] "All" := by
    decide
  obtain ⟨hmem, hmin⟩ := h _ hm
  exact ⟨hmem, hmin ⟨some "a", some 5, "Regular"⟩ (by decide) (by decide)⟩

/-- Claim C7: the three sidebar filters (session-day category with the
`All` sentinel, date set-membership with the `All` sentinel, moderator
equality) compose conjunctively, and applying them one at a time in any
of the six orders yields exactly the combined-mask view. -/
theorem claim_C7 :
    ∀ (rows : List FRow) (d : String) (ds : List String) (m : String),
      momodView rows d ds m =
          ((rows.filter (pMod m)).filter (pDate ds)).filter (pDay d) ∧
      momodView rows d ds m =
          ((rows.filter (pDate ds)).filter (pMod m)).filter (pDay d) ∧
      momodView rows d ds m =
          ((rows.filter (pMod m)).filter (pDay d)).filter (pDate ds) ∧
      momodView rows d ds m =
          ((rows.filter (pDay d)).filter (pMod m)).filter (pDate ds) ∧
      momodView rows d ds m =
          ((rows.filter (pDate ds)).filter (pDay d)).filter (pMod m) ∧
      momodView rows d ds m =
          ((rows.filter (pDay d)).filter (pDate ds)).filter (pMod m) := by
  intro rows d ds m
  refine ⟨?_, ?_, ?_, ?_, ?_, ?_⟩ <;>
    · rw [momodView, List.filter_filter, List.filter_filter]
      all_goals
        refine List.filter_congr ?_
        intro x _
        cases pDay d x <;> cases pDate ds x <;> cases pMod m x <;> rfl

/-- Claim C5: the numeric-distribution aggregation buckets only
non-null values, its percentage denominator is the number of non-null
values (null entries contribute to neither numerator nor denominator:
deleting a null entry leaves the histogram unchanged), and a single
non-null row yields one bucket at 100%; in the claim's scenario a
`confidence` of null gives an empty histogram while an `overall` of 5
gives the bucket 5 at 100%. -/
theorem claim_C5 :
    (∀ vals : List (Option ℚ),
      histTotal (scoreHist vals) = (vals.filterMap id).length) ∧
    (∀ pre post : List (Option ℚ),
      scoreHist (pre ++ none :: post) = scoreHist (pre ++ post)) ∧
    (∀ q : ℚ, scoreHist [some q] = [(round1 q, 1)] ∧
      histPcts (scoreHist [some q]) = [(round1 q, 1)]) ∧
    (scoreHist [(none : Option ℚ)] = [] ∧
      scoreHist [some 5] = [(5, 1)] ∧
      histPcts (scoreHist [some 5]) = [(5, 1)]) := by
  have hsingle : ∀ q : ℚ, scoreHist [some q] = [(round1 q, 1)] := by
    intro q
    simp [scoreHist, List.insertionSort, List.orderedInsert]
  refine ⟨?_, ?_, ?_, ?_⟩
  · intro vals
    rw [scoreHist, histTotal, List.map_map]
    have hperm : List.Perm
        (List.insertionSort (· ≤ ·)
          ((vals.map (Option.map round1)).filterMap id).dedup)
        ((vals.map (Option.map round1)).filterMap id).dedup :=
      List.perm_insertionSort _ _
    calc ((List.insertionSort (· ≤ ·)
            ((vals.map (Option.map round1)).filterMap id).dedup).map
          ((·.2) ∘ fun s =>
            (s, ((vals.map (Option.map round1)).filterMap id).count s))).sum
        = (((vals.map (Option.map round1)).filterMap id).dedup.map
            fun s => ((vals.map (Option.map round1)).filterMap id).count s).sum
          := (hperm.map _).sum_eq
      _ = ((vals.map (Option.map round1)).filterMap id).length :=
          sum_count_dedup _
      _ = (vals.filterMap id).length := by
          rw [filterMap_id_map_optionMap, List.length_map]
  · intro pre post
    have hxs : ((pre ++ none :: post).map (Option.map round1)).filterMap id =
        ((pre ++ post).map (Option.map round1)).filterMap id := by
      simp [List.map_append, List.filterMap_append]
    rw [scoreHist, scoreHist, hxs]
  · intro q
    refine ⟨hsingle q, ?_⟩
    rw [hsingle q]
    simp [histPcts, histTotal]
  · refine ⟨by decide, ?_, ?_⟩
    · rw [hsingle 5]
      norm_num [round1, roundHalfEven]
    · rw [hsingle 5]
      norm_num [histPcts, histTotal, round1, roundHalfEven]

/-- Witness for claim C5: a single null entry yields an empty
histogram. -/
theorem claim_C5_witness : scoreHist [(none : Option ℚ)] = [] :=
  claim_C5.2.2.2.1

/-- Claim C6: tag extraction splits on semicolons, trims each piece and
drops empty pieces (the scenario string yields the three tags and the
frequency table `Pacing: 2, Content: 1`); over any record collection
the flattened frequency table is sorted descending by count, with ties
ordered by first occurrence in the flattened tag sequence. -/
theorem claim_C6 :
    splitTags "Pacing; Content ;Pacing" = ["Pacing", "Content", "Pacing"] ∧
    themeTable [some "Pacing; Content ;Pacing"] = [("Pacing", 2), ("Content", 1)] ∧
    ∀ vals : List (Option String),
      (themeTable vals).Pairwise fun a b =>
        b.2 ≤ a.2 ∧ (a.2 = b.2 →
          firstIdx a.1 (flatTags vals) < firstIdx b.1 (flatTags vals)) := by
  refine ⟨by decide, by decide, ?_⟩
  intro vals
  have hpre : (themeCountsDict vals).Pairwise
      (fun a b : String × Nat =>
        firstIdx a.1 (flatTags vals) < firstIdx b.1 (flatTags vals)) := by
    rw [themeCountsDict_eq]
    exact (List.pairwise_map).mpr (firstKeys_pairwise (flatTags vals))
  rw [themeTable]
  have := pairwise_insertionSort_descTie Prod.snd
    (fun a b : String × Nat =>
      firstIdx a.1 (flatTags vals) < firstIdx b.1 (flatTags vals))
    (themeCountsDict vals) hpre
  refine this.imp ?_
  intro a b hab
  rcases hab with hlt | ⟨heq, hR⟩
  · exact ⟨le_of_lt hlt, fun he => absurd (he ▸ hlt) (lt_irrefl _)⟩
  · exact ⟨le_of_eq heq.symm, fun _ => hR⟩

/-- Witness for claim C6 at the scenario tag string. -/
theorem claim_C6_witness :
    splitTags "Pacing; Content ;Pacing" = ["Pacing", "Content", "Pacing"] :=
  claim_C6.1

/-- Witness for claim C7 at a concrete one-row table and concrete
criteria. -/
theorem claim_C7_witness :
    momodView [⟨some "Friday", some "d", some "m"⟩] "Friday" ["d"] "m" =
      (((([⟨some "Friday", some "d", some "m"⟩] : List FRow).filter
        (pMod "m")).filter (pDate ["d"])).filter (pDay "Friday")) :=
  (claim_C7 [⟨some "Friday", some "d", some "m"⟩] "Friday" ["d"] "m").1

/-- Claim C8: for any raw table with equal-length columns and no two
header names equal up to case, the schema normalizer produces a table
in which every canonical field name is present, every column still has
one entry per input row (rows are never dropped), and the timestamp
column is the elementwise tolerant parse of the raw timestamp column —
missing or unparseable entries become null.  The normalizer is a total
function, so it never raises. -/
theorem claim_C8 :
    ∀ (p : String → Option String) (dfmt mfmt : String → String) (t : Table),
      (∀ q ∈ t, q.2.length = nRows t) →
      ((colNames t).map lowerStr).Nodup →
      (∀ c ∈ canonicalCols,
        ((normalizeTable p dfmt mfmt t).lookup c).isSome = true) ∧
      (∀ q ∈ normalizeTable p dfmt mfmt t, q.2.length = nRows t) ∧
      ((normalizeTable p dfmt mfmt t).lookup "timestamp" =
        some ((tsRawCol t).map fun v => v.bind p)) := by
  intro p dfmt mfmt t hlen _hnd
  have hren_len : ∀ q ∈ renameCols t, q.2.length = nRows t :=
    renameCols_len t _ hlen
  have hren_rows : nRows (renameCols t) = nRows t := renameCols_nRows t
  obtain ⟨h1, h2, _h3, h4⟩ :=
    foldl_ensureStep_props (nRows t) canonicalCols (renameCols t)
      hren_rows hren_len
  have hts_mem : "timestamp" ∈ colNames (ensureCols (renameCols t)) :=
    h4 "timestamp" (by decide)
  obtain ⟨col, hcol⟩ : ∃ col,
      (ensureCols (renameCols t)).lookup "timestamp" = some col := by
    have := lookup_isSome_of_mem _ _ hts_mem
    exact Option.isSome_iff_exists.mp this
  have hts_raw : tsRawCol t = col := by
    rw [tsRawCol, hcol]
    rfl
  have hcol_len : col.length = nRows t :=
    h2 _ (lookup_mem _ _ _ hcol)
  have hparsed_len : ((tsRawCol t).map fun v => v.bind p).length = nRows t := by
    rw [List.length_map, hts_raw]
    exact hcol_len
  refine ⟨?_, ?_, ?_⟩
  · intro c hc
    refine lookup_isSome_of_mem _ c ?_
    rw [normalizeTable, parseTsCols, colNames_append, List.mem_append]
    left
    rw [colNames_map_set]
    exact h4 c hc
  · intro q hq
    rw [normalizeTable, parseTsCols, List.mem_append] at hq
    rcases hq with hq | hq
    · rcases mem_map_set _ _ _ _ hq with hq | hq
      · exact h2 q hq
      · rw [hq]
        exact hparsed_len
    · rcases List.mem_cons.mp hq with rfl | hq
      · rw [List.length_map]
        exact hparsed_len
      · rcases List.mem_singleton.mp hq with rfl
        rw [List.length_map]
        exact hparsed_len
  · rw [normalizeTable, parseTsCols]
    rw [lookup_append_left _ _ _ (by rw [colNames_map_set]; exact hts_mem)]
    exact lookup_map_set _ _ _ hts_mem

/-- Witness for claim C8 at a concrete two-row table whose second
timestamp fails to parse. -/
theorem claim_C8_witness :
    (∀ c ∈ canonicalCols,
      ((normalizeTable exampleParse exampleFmt exampleFmt
          exampleTable).lookup c).isSome = true) ∧
    (∀ q ∈ normalizeTable exampleParse exampleFmt exampleFmt exampleTable,
      q.2.length = nRows exampleTable) ∧
    ((normalizeTable exampleParse exampleFmt exampleFmt
        exampleTable).lookup "timestamp" =
      some ((tsRawCol exampleTable).map fun v => v.bind exampleParse)) :=
  claim_C8 exampleParse exampleFmt exampleFmt exampleTable
    (by decide) (by decide)

/-- Witness for claim C10: the cleaning step stringifies a missing cell
to the literal `nan`. -/
theorem claim_C10_witness : cleanCell none = some "nan" :=
  claim_C10.1

end Keminggris
